import Mathlib

set_option maxRecDepth 8000

/-!
Shallow embedding of `e8_fractal_power_module.py` (E8–Qutrit Fractal Power
Module): E8 root generation, phase torus, per-node qutrit states with soft
radial projection, control-tick scheduling and the minimal stereo renderer.
NumPy float arithmetic is modelled over the reals; the engine's pseudorandom
generator is modelled as an explicit deterministic stream of draws indexed by
a counter held in the engine state (the source seeds a process-local
generator at construction, so two engines with the same seed see the same
stream).
-/

namespace E8

/-- Python/NumPy float modulo: `x % y = x - y * floor (x / y)` (result has the
sign of the divisor). -/
noncomputable def fmod (x y : ℝ) : ℝ := x - y * ⌊x / y⌋

/-- The macro bundle from the `Macros` dataclass. -/
structure Macros where
  CosmicDepth : ℤ
  PhiDrift : ℝ
  CoxeterPhase : ℝ
  EntropyBloom : ℝ
  TernaryBias : ℝ
  PhaseGain : ℝ
  AmpGain : ℝ
  EnergyFlow : ℝ
  SpatialWarp : ℝ

/-- Default macro values of the `Macros` dataclass. -/
noncomputable def defaultMacros : Macros :=
  ⟨5, 0.02, 0, 0.02, 0.10, 0.25, 0.20, 1.00, 0⟩

/-- NumPy `np.clip(x, lo, hi) = minimum(maximum(x, lo), hi)`. -/
noncomputable def npClip (x lo hi : ℝ) : ℝ := min (max x lo) hi

/-- Bit `b` of `mask`, as in `(mask >> b) & 1`. -/
def bitSign (mask b : ℕ) : Bool := mask.testBit b

/-- Number of minus signs a mask induces on the 8 axes (the `minus` counter in
`generate_e8_roots`). -/
def minusCount (mask : ℕ) : ℕ :=
  ((List.range 8).filter fun b => bitSign mask b).length

/-- Family-A root for axes `i < j` and signs `s0, s1`: the vector with
`s0/sqrt 2` at `i`, `s1/sqrt 2` at `j` and zeros elsewhere. -/
noncomputable def aRoot (i j : ℕ) (s0 s1 : ℝ) : Fin 8 → ℝ := fun k =>
  if (k : ℕ) = i then s0 * (1 / Real.sqrt 2)
  else if (k : ℕ) = j then s1 * (1 / Real.sqrt 2)
  else 0

/-- Family A of `generate_e8_roots`: the quadruple loop over `i`, `j` in
`range(i+1, 8)` and the two signs, in source iteration order
(`-1.0` before `1.0`). -/
noncomputable def familyA : List (Fin 8 → ℝ) :=
  (List.range 8).flatMap fun i =>
    (List.range' (i + 1) (7 - i)).flatMap fun j =>
      ([-1, 1] : List ℝ).flatMap fun s0 =>
        ([-1, 1] : List ℝ).map fun s1 => aRoot i j s0 s1

/-- The raw `vals` array built from an 8-bit mask: `-0.5` where the bit is
set, `0.5` elsewhere. -/
noncomputable def bRootRaw (mask : ℕ) : Fin 8 → ℝ := fun b =>
  if bitSign mask (b : ℕ) then -0.5 else 0.5

/-- A Family-B root: the raw mask vector normalized by its Euclidean norm
when that norm is positive (`vals / np.linalg.norm(vals)`). -/
noncomputable def bRoot (mask : ℕ) : Fin 8 → ℝ :=
  let n := Real.sqrt (∑ b, bRootRaw mask b ^ 2)
  if 0 < n then (fun b => bRootRaw mask b / n) else bRootRaw mask

/-- The ascending list of 8-bit masks with an even number of set bits, the
Family-B iteration of `generate_e8_roots` after its parity filter. -/
def evenMasks : List ℕ :=
  (List.range 256).filter fun mask => minusCount mask % 2 == 0

/-- Family B of `generate_e8_roots`: one normalized root per even-parity mask,
in ascending mask order. -/
noncomputable def familyB : List (Fin 8 → ℝ) := evenMasks.map bRoot

/-- The full root list of `generate_e8_roots`; the source stops collecting
once 240 roots are gathered, modelled by `take 240`. -/
noncomputable def generate_e8_roots : List (Fin 8 → ℝ) :=
  (familyA ++ familyB).take 240

/-- Euclidean norm of an 8-vector (as `np.linalg.norm`). -/
noncomputable def vnorm (r : Fin 8 → ℝ) : ℝ := Real.sqrt (∑ b, r b ^ 2)

/-- QutritState.soft_project: leave the vector alone when its squared norm is
within `r_max^2`, otherwise scale by
`r_max * tanh(n / r_max) / (n + 1e-12)`. -/
noncomputable def softProject (r : Fin 8 → ℝ) (rMax : ℝ) : Fin 8 → ℝ :=
  let n2 := ∑ b, r b * r b
  if n2 ≤ rMax * rMax then r
  else
    let n := Real.sqrt n2
    let s := rMax * Real.tanh (n / rMax) / (n + 1e-12)
    fun b => r b * s

/-- E8FractalPowerModule._choose_sparse_roots_per_node: for node `i`, the
indices `((i*17) % 240 + j*stride) % 240` for `j = 0 .. rootsPerNode - 1`,
with `stride = 240 / rootsPerNode` (integer division). -/
def chooseSparseRootsPerNode (numNodes rootsPerNode : ℕ) : List (List ℕ) :=
  (List.range numNodes).map fun i =>
    (List.range rootsPerNode).map fun j =>
      ((i * 17) % 240 + j * (240 / rootsPerNode)) % 240

/-- One pair of uniform draws consumed by a control tick when EntropyBloom is
active: the `uniform(-0.05, 0.05, 8)` torsion on omega and the
`uniform(-0.002, 0.002, 8)` torsion on theta. -/
structure RngDraw where
  omegaNoise : Fin 8 → ℝ
  thetaNoise : Fin 8 → ℝ

/-- The deterministic stream of the engine's seeded generator. -/
def RngStream : Type := ℕ → RngDraw

/-- Full mutable state of an `E8FractalPowerModule` instance. Per-node arrays
are total functions on node indices; only indices below `numNodes` are ever
read or written. `ticks` is a ghost counter of fired control steps used to
state tick-accounting properties. -/
structure EngineState where
  numNodes : ℕ
  sampleRate : ℝ
  controlRate : ℝ
  macros : Macros
  rngIdx : ℕ
  theta : Fin 8 → ℝ
  omega : Fin 8 → ℝ
  qs : ℕ → Fin 8 → ℝ
  sparseIdx : List (List ℕ)
  dphi : ℕ → ℝ
  damp : ℕ → ℝ
  morph : ℕ → ℝ
  nodePhase : ℕ → ℝ
  baseFreq : ℕ → ℝ
  samplesPerControl : ℕ
  sampleCounter : ℕ
  ticks : ℕ

/-- E8FractalPowerModule._apply_torus_macros: overwrite omega from PhiDrift
with the per-axis ramp, skew theta[0] and theta[1] by the Coxeter phase, and
when EntropyBloom exceeds `1e-6` add the random torsion, consuming one
position of the stream. -/
noncomputable def applyTorusMacros (u : RngStream) (s : EngineState) :
    EngineState :=
  let drift := s.macros.PhiDrift
  let omega1 : Fin 8 → ℝ := fun k => drift * (0.6 + 0.1 * (k : ℕ))
  let cp := s.macros.CoxeterPhase
  let theta1 : Fin 8 → ℝ := fun k =>
    if (k : ℕ) = 0 then fmod (s.theta k + 0.001 * Real.sin cp) (2 * Real.pi)
    else if (k : ℕ) = 1 then
      fmod (s.theta k + 0.001 * Real.cos cp) (2 * Real.pi)
    else s.theta k
  let e := s.macros.EntropyBloom
  if 1e-6 < e then
    let d := u s.rngIdx
    { s with
      omega := fun k => omega1 k + e * d.omegaNoise k
      theta := fun k => fmod (theta1 k + e * d.thetaNoise k) (2 * Real.pi)
      rngIdx := s.rngIdx + 1 }
  else
    { s with omega := omega1, theta := theta1 }

/-- Phase of root `k` against torus angles `theta`: row `k` of
`roots @ theta`. -/
noncomputable def rootPhase (theta : Fin 8 → ℝ) (k : ℕ) : ℝ :=
  ∑ d, generate_e8_roots.getD k (fun _ => 0) d * theta d

/-- The in-place update of components 0, 3 and 7 of a node's qutrit vector in
`control_step` (decay constant `lam = 0.8`). -/
noncomputable def updatedNodeVec (dt bias drive0 drive1 : ℝ)
    (r : Fin 8 → ℝ) : Fin 8 → ℝ := fun c =>
  if (c : ℕ) = 0 then r c + dt * (-(0.8) * r c + drive0 + bias)
  else if (c : ℕ) = 3 then r c + dt * (-(0.8) * r c + drive1 - 0.5 * bias)
  else if (c : ℕ) = 7 then
    r c + dt * (-(0.8) * r c + 0.25 * (drive0 + drive1) - 0.5 * bias)
  else r c

/-- E8FractalPowerModule.control_step: apply macros to the torus, advance it
by `1/control_rate`, compute all root phases once, then update each node's
modulation outputs and qutrit state. The two drive terms depend only on the
advanced torus state, so computing them once outside the node loop matches
the per-node recomputation of the source. -/
noncomputable def controlStep (u : RngStream) (s : EngineState) :
    EngineState :=
  let s1 := applyTorusMacros u s
  let dt := 1 / s1.controlRate
  let theta2 : Fin 8 → ℝ := fun k =>
    fmod (s1.theta k + s1.omega k * dt) (2 * Real.pi)
  let phAll : ℕ → ℝ := fun k => rootPhase theta2 k
  let phaseGain := s1.macros.PhaseGain
  let ampGain := s1.macros.AmpGain
  let bias := s1.macros.TernaryBias
  let drive0 := 0.5 * Real.sin (theta2 0) + 0.5 * Real.sin (theta2 1)
  let drive1 := 0.5 * Real.cos (theta2 2) + 0.5 * Real.cos (theta2 3)
  let idxOf : ℕ → List ℕ := fun i => s1.sparseIdx.getD i []
  let nrm : ℕ → ℝ := fun i => 1 / (max 1 (idxOf i).length : ℕ)
  let sinSum : ℕ → ℝ := fun i => ((idxOf i).map fun k => Real.sin (phAll k)).sum
  let cosSum : ℕ → ℝ := fun i => ((idxOf i).map fun k => Real.cos (phAll k)).sum
  let newVec : ℕ → Fin 8 → ℝ := fun i =>
    updatedNodeVec dt bias drive0 drive1 (s1.qs i)
  { s1 with
    theta := theta2
    dphi := fun i =>
      if i < s1.numNodes then phaseGain * sinSum i * nrm i else s1.dphi i
    damp := fun i =>
      if i < s1.numNodes then npClip (1 + ampGain * cosSum i * nrm i) 0 4
      else s1.damp i
    morph := fun i =>
      if i < s1.numNodes then
        npClip (0.5 * Real.sqrt
          ((newVec i 0) ^ 2 + (newVec i 3) ^ 2 + (newVec i 7) ^ 2)) 0 1
      else s1.morph i
    qs := fun i =>
      if i < s1.numNodes then softProject (newVec i) 1.2 else s1.qs i
    ticks := s1.ticks + 1 }

/-- E8FractalPowerModule.process_control_for_samples: consume `remaining`
samples in chunks of `min (samplesPerControl - sampleCounter) remaining`,
firing a control step whenever the counter reaches the chunk size. In the
source the loop leaves `sampleCounter < samplesPerControl` invariant, so the
`step = 0` guard (under which the source would never terminate) is
unreachable from constructed states. -/
noncomputable def processControlLoop (u : RngStream) (s : EngineState)
    (remaining : ℕ) : EngineState :=
  if hr : 0 < remaining then
    if hs : 0 < min (s.samplesPerControl - s.sampleCounter) remaining then
      processControlLoop u
        (if s.samplesPerControl ≤ s.sampleCounter +
            min (s.samplesPerControl - s.sampleCounter) remaining then
          controlStep u { s with sampleCounter := 0 }
        else
          { s with sampleCounter := (s.sampleCounter +
              min (s.samplesPerControl - s.sampleCounter) remaining) })
        (remaining - min (s.samplesPerControl - s.sampleCounter) remaining)
    else s
  else s
termination_by remaining
decreasing_by
  exact Nat.sub_lt hr hs

/-- Single-sample control accounting: one sample of progress, firing a tick
when the counter reaches the threshold. `processControlLoop` is its chunked
form. -/
noncomputable def tickAdvance (u : RngStream) (s : EngineState) :
    EngineState :=
  if s.samplesPerControl ≤ s.sampleCounter + 1 then
    controlStep u { s with sampleCounter := 0 }
  else { s with sampleCounter := s.sampleCounter + 1 }

/-- Sine-to-triangle morph of `_morph_wave`. -/
noncomputable def morphWave (phase morph : ℝ) : ℝ :=
  (1 - morph) * Real.sin phase +
    morph * ((2 / Real.pi) * Real.arcsin (Real.sin phase))

/-- E8FractalPowerModule.render: run control accounting for the block, then
synthesize `numSamples` stereo samples from block-constant modulation values,
carrying each node's phase forward mod 2π. Returns the left channel, the
right channel and the post-call engine state. -/
noncomputable def render (u : RngStream) (s : EngineState) (numSamples : ℕ)
    (baseGain : ℝ) : List ℝ × List ℝ × EngineState :=
  let N := numSamples
  let k := 2 * Real.pi / s.sampleRate
  let s1 := processControlLoop u s N
  let dphiHz : ℕ → ℝ := fun i => s1.dphi i / (2 * Real.pi)
  let amp : ℕ → ℝ := fun i => baseGain * s1.damp i
  let freq : ℕ → ℝ := fun i => npClip (s1.baseFreq i + dphiHz i) 1 20000
  let phaseInc : ℕ → ℝ := fun i => k * freq i
  let phaseT : ℕ → ℕ → ℝ := fun i t => s1.nodePhase i + phaseInc i * t
  let sig : ℕ → ℕ → ℝ := fun i t => morphWave (phaseT i t) (s1.morph i) * amp i
  let nodePhase1 : ℕ → ℝ := fun i =>
    fmod (s1.nodePhase i + phaseInc i * N) (2 * Real.pi)
  let pan := 0.5 + 0.5 * Real.sin (s1.theta 4)
  let mix : ℕ → ℝ := fun t => ∑ i ∈ Finset.range s1.numNodes, sig i t
  let gain := s1.macros.EnergyFlow
  let L := List.ofFn fun t : Fin N => Real.tanh (gain * ((1 - pan) * mix t))
  let R := List.ofFn fun t : Fin N => Real.tanh (gain * (pan * mix t))
  (L, R, { s1 with nodePhase := nodePhase1 })

/-- NumPy `np.max` over a nonempty list. -/
noncomputable def npMax (l : List ℝ) : ℝ := l.foldr max l.headI

/-- The golden-ratio base-frequency ladder of the constructor:
`110 * ratios / max(ratios)` with `ratios i = phi ** (i - numNodes // 2)`. -/
noncomputable def baseFreqLadder (numNodes : ℕ) : ℕ → ℝ :=
  let phi := (1 + Real.sqrt 5) * 0.5
  let ratio : ℕ → ℝ := fun i => phi ^ ((i : ℤ) - (numNodes / 2 : ℕ))
  let mx := npMax ((List.range numNodes).map ratio)
  fun i => 110 * (ratio i / mx)

/-- E8FractalPowerModule.__init__ with the given node count, sample rate and
control rate: zeroed torus, zeroed qutrit states, strided sparse root
indices, unit amplitude factors, zero oscillator phases, golden-ratio base
frequencies and the control scheduler
`samples_per_control = max(1, round(sample_rate / control_rate))`. The seed
enters through the `RngStream` passed to the stepping functions. -/
noncomputable def initEngine (numNodes : ℕ) (sampleRate controlRate : ℝ) :
    EngineState where
  numNodes := numNodes
  sampleRate := sampleRate
  controlRate := controlRate
  macros := defaultMacros
  rngIdx := 0
  theta := fun _ => 0
  omega := fun _ => 0
  qs := fun _ _ => 0
  sparseIdx := chooseSparseRootsPerNode numNodes 12
  dphi := fun _ => 0
  damp := fun _ => 1
  morph := fun _ => 0
  nodePhase := fun _ => 0
  baseFreq := baseFreqLadder numNodes
  samplesPerControl := max 1 (round (sampleRate / controlRate)).toNat
  sampleCounter := 0
  ticks := 0

/-- A sequence of render calls, each a sample count and base gain; returns
the list of stereo blocks and the final state. -/
noncomputable def runCalls (u : RngStream) :
    EngineState → List (ℕ × ℝ) → List (List ℝ × List ℝ) × EngineState
  | s, [] => ([], s)
  | s, c :: cs =>
    let r := render u s c.1 c.2
    let rest := runCalls u r.2.2 cs
    ((r.1, r.2.1) :: rest.1, rest.2)

/-- Overwrite the two macros that the spec marks as inert. -/
noncomputable def setInertMacros (s : EngineState) (d : ℤ) (w : ℝ) :
    EngineState :=
  { s with macros := { s.macros with CosmicDepth := d, SpatialWarp := w } }

/-- The all-zero draw stream, a concrete `RngStream` for witnesses. -/
def zeroStream : RngStream := fun _ => ⟨fun _ => 0, fun _ => 0⟩

/-- The ray through the first coordinate axis, used to exhibit the jump of
`softProject` at its bound. -/
noncomputable def rayVec (t : ℝ) : Fin 8 → ℝ := fun k =>
  if k = 0 then t else 0

/-- The hyperbolic tangent stays below one. -/
theorem tanh_lt_one (x : ℝ) : Real.tanh x < 1 := by
  rw [Real.tanh_eq_sinh_div_cosh]
  exact (div_lt_one (Real.cosh_pos x)).mpr (Real.sinh_lt_cosh x)

/-- The hyperbolic tangent stays above minus one. -/
theorem neg_one_lt_tanh (x : ℝ) : -1 < Real.tanh x := by
  have h := tanh_lt_one (-x)
  rw [Real.tanh_neg] at h
  linarith

/-- The hyperbolic tangent is nonnegative on nonnegative inputs. -/
theorem tanh_nonneg {x : ℝ} (hx : 0 ≤ x) : 0 ≤ Real.tanh x := by
  rw [Real.tanh_eq_sinh_div_cosh]
  exact div_nonneg (Real.sinh_nonneg_iff.mpr hx) (Real.cosh_pos x).le

/-- Python float modulo fixes values already inside `[0, y)`. -/
theorem fmod_eq_self {x y : ℝ} (h0 : 0 ≤ x) (hxy : x < y) : fmod x y = x := by
  have hy : 0 < y := lt_of_le_of_lt h0 hxy
  have hfl : ⌊x / y⌋ = 0 := by
    rw [Int.floor_eq_zero_iff]
    exact ⟨div_nonneg h0 hy.le, (div_lt_one hy).mpr hxy⟩
  simp [fmod, hfl]

/-- The head of a nonempty list is a member, in `getD` form. -/
theorem getD_zero_mem {l : List ℝ} (h : l ≠ []) : l.getD 0 0 ∈ l := by
  cases l with
  | nil => exact absurd rfl h
  | cons a t => simp [List.getD]

/-- C1. For every macro configuration (any starting state), every base gain,
and every render request of any sample count, every sample in both returned
channel arrays of `render` lies in `[-1, 1]`: each sample is a hyperbolic
tangent. -/
theorem render_output_in_unit_interval (u : RngStream) (s : EngineState)
    (numSamples : ℕ) (baseGain : ℝ) :
    (∀ x ∈ (render u s numSamples baseGain).1, -1 ≤ x ∧ x ≤ 1) ∧
      ∀ x ∈ (render u s numSamples baseGain).2.1, -1 ≤ x ∧ x ≤ 1 := by
  constructor <;> intro x hx <;>
  · simp only [render, List.mem_ofFn, Set.mem_range] at hx
    obtain ⟨t, rfl⟩ := hx
    exact ⟨(neg_one_lt_tanh _).le, (tanh_lt_one _).le⟩

/-- Witness for C1: the first sample of a concrete one-sample render of a
freshly constructed engine is within `[-1, 1]`. -/
theorem render_output_in_unit_interval_witness :
    -1 ≤ (render zeroStream (initEngine 8 48000 1000) 1 0.2).1.getD 0 0 ∧
      (render zeroStream (initEngine 8 48000 1000) 1 0.2).1.getD 0 0 ≤ 1 := by
  refine (render_output_in_unit_interval zeroStream
    (initEngine 8 48000 1000) 1 0.2).1 _ (getD_zero_mem ?_)
  intro hnil
  have hlen := congrArg List.length hnil
  simp [render] at hlen

/-- C4. For every 8-component vector and every positive bound, `softProject`
never increases the Euclidean norm, the resulting norm is at most the bound,
and a vector whose norm is already at most the bound is left unchanged. -/
theorem softProject_norm_bound (r : Fin 8 → ℝ) (rMax : ℝ) (hpos : 0 < rMax) :
    vnorm (softProject r rMax) ≤ vnorm r ∧
      vnorm (softProject r rMax) ≤ rMax ∧
      (vnorm r ≤ rMax → softProject r rMax = r) := by
  have hsum : (∑ b, r b * r b) = ∑ b, r b ^ 2 := by
    simp [pow_two]
  have hn2 : (0 : ℝ) ≤ ∑ b, r b * r b :=
    Finset.sum_nonneg fun b _ => mul_self_nonneg (r b)
  have hvr : vnorm r = Real.sqrt (∑ b, r b * r b) := by rw [vnorm, hsum]
  by_cases h : (∑ b, r b * r b) ≤ rMax * rMax
  · have hid : softProject r rMax = r := by
      simp [softProject, h]
    have hle : vnorm r ≤ rMax := by
      rw [hvr]
      calc Real.sqrt (∑ b, r b * r b) ≤ Real.sqrt (rMax * rMax) :=
            Real.sqrt_le_sqrt h
        _ = rMax := Real.sqrt_mul_self hpos.le
    exact ⟨by rw [hid], by rw [hid]; exact hle, fun _ => hid⟩
  · have hgt : rMax * rMax < ∑ b, r b * r b := lt_of_not_le h
    set n := Real.sqrt (∑ b, r b * r b) with hn
    have hn0 : 0 ≤ n := Real.sqrt_nonneg _
    have hrn : rMax < n := by
      rw [hn]
      exact (Real.lt_sqrt hpos.le).mpr (by rw [pow_two]; exact hgt)
    set c := rMax * Real.tanh (n / rMax) / (n + 1e-12) with hc
    have hden : (0 : ℝ) < n + 1e-12 := by positivity
    have hth0 : 0 ≤ Real.tanh (n / rMax) :=
      tanh_nonneg (div_nonneg hn0 hpos.le)
    have hc0 : 0 ≤ c :=
      div_nonneg (mul_nonneg hpos.le hth0) hden.le
    have hnum : rMax * Real.tanh (n / rMax) < rMax := by
      have := tanh_lt_one (n / rMax)
      nlinarith
    have hc1 : c ≤ 1 := by
      rw [hc, div_le_one hden]
      nlinarith
    have hproj : softProject r rMax = fun b => r b * c := by
      simp only [softProject, if_neg h]
    have hnorm : vnorm (softProject r rMax) = n * c := by
      rw [hproj, vnorm]
      have hsq : (∑ b, (r b * c) ^ 2) = (∑ b, r b ^ 2) * c ^ 2 := by
        rw [Finset.sum_mul]
        exact Finset.sum_congr rfl fun b _ => by ring
      rw [hsq, ← hsum, Real.sqrt_mul hn2, Real.sqrt_sq hc0]
    refine ⟨?_, ?_, ?_⟩
    · rw [hnorm, hvr]
      nlinarith
    · rw [hnorm, hc]
      have hkey : n * (rMax * Real.tanh (n / rMax) / (n + 1e-12)) =
          (rMax * Real.tanh (n / rMax)) * (n / (n + 1e-12)) := by
        field_simp
        ring
      rw [hkey]
      have hb1 : n / (n + 1e-12) ≤ 1 := by
        rw [div_le_one hden]; linarith
      have hb0 : 0 ≤ n / (n + 1e-12) := div_nonneg hn0 hden.le
      calc (rMax * Real.tanh (n / rMax)) * (n / (n + 1e-12)) ≤
            rMax * (n / (n + 1e-12)) := by nlinarith
        _ ≤ rMax * 1 := by nlinarith
        _ = rMax := mul_one rMax
    · intro hle
      exfalso
      rw [hvr] at hle
      exact absurd hle (not_le.mpr hrn)

/-- Witness for C4: the zero vector with the default bound `1.2`. -/
theorem softProject_norm_bound_witness :
    vnorm (softProject (fun _ => 0) 1.2) ≤ vnorm (fun _ => 0) ∧
      vnorm (softProject (fun _ => 0) 1.2) ≤ 1.2 ∧
      (vnorm (fun _ => (0 : ℝ)) ≤ 1.2 →
        softProject (fun _ => 0) 1.2 = fun _ => 0) :=
  softProject_norm_bound (fun _ => 0) 1.2 (by norm_num)

/-- C9 counterexample. The claim asserts that the sparse subsets of distinct
nodes partially overlap; at the concrete node pair `(0, 1)` of the default
construction (8 nodes, 12 roots per node) the two subsets share no index at
all. -/
theorem sparse_subsets_overlap_counterexample :
    ¬ ∃ k, k ∈ (chooseSparseRootsPerNode 8 12).getD 0 [] ∧
      k ∈ (chooseSparseRootsPerNode 8 12).getD 1 [] := by
  decide

/-- C9 amended. The sparse root-index subsets are chosen by the deterministic
strided-offset rule `(17*i + 20*j) % 240`; for the default 8 nodes every
node's subset consists of 12 distinct indices, the subsets are reproducible
across constructions, and the subsets of distinct nodes are pairwise
disjoint (not partially overlapping). -/
theorem sparse_subsets_strided_disjoint :
    (∀ numNodes, ∀ i < numNodes,
      (chooseSparseRootsPerNode numNodes 12).getD i [] =
        (List.range 12).map fun j => (17 * i + 20 * j) % 240) ∧
    (∀ i < 8, ((chooseSparseRootsPerNode 8 12).getD i []).Nodup) ∧
    chooseSparseRootsPerNode 8 12 = chooseSparseRootsPerNode 8 12 ∧
    (∀ i < 8, ∀ j < 8, i ≠ j →
      ∀ k ∈ (chooseSparseRootsPerNode 8 12).getD i [],
        k ∉ (chooseSparseRootsPerNode 8 12).getD j []) := by
  have hint : ∀ i < 8, ∀ j < 8, i ≠ j →
      ((chooseSparseRootsPerNode 8 12).getD i []).inter
        ((chooseSparseRootsPerNode 8 12).getD j []) = [] := by decide
  refine ⟨?_, by decide, rfl, ?_⟩
  · intro numNodes i hi
    unfold chooseSparseRootsPerNode
    rw [List.getD_eq_getElem _ _ (by simpa using hi)]
    rw [List.getElem_map, List.getElem_range]
    apply List.map_congr_left
    intro j _
    omega
  · intro i hi j hj hne k hk
    have hd := List.inter_eq_nil_iff_disjoint.mp (hint i hi j hj hne)
    exact fun hk' => hd hk hk'

/-- Witness for the amended C9: node 0's index list is the strided image of
`j = 0..11`. -/
theorem sparse_subsets_strided_disjoint_witness :
    (chooseSparseRootsPerNode 8 12).getD 0 [] =
      (List.range 12).map (fun j => (17 * 0 + 20 * j) % 240) :=
  sparse_subsets_strided_disjoint.1 8 0 (by norm_num)

/-- Family A contributes 112 vectors. -/
theorem familyA_length : familyA.length = 112 := by rfl

/-- There are exactly 128 even-parity 8-bit masks. -/
theorem evenMasks_length : evenMasks.length = 128 := by decide

/-- Family B contributes 128 vectors. -/
theorem familyB_length : familyB.length = 128 := by
  rw [familyB, List.length_map, evenMasks_length]

/-- The truncation at 240 keeps the whole generated list. -/
theorem roots_eq_append : generate_e8_roots = familyA ++ familyB := by
  rw [generate_e8_roots]
  apply List.take_of_length_le
  rw [List.length_append, familyA_length, familyB_length]

/-- The generated root list has exactly 240 entries. -/
theorem roots_length : generate_e8_roots.length = 240 := by
  rw [roots_eq_append, List.length_append, familyA_length, familyB_length]

/-- Value of a Family-A root at its first active axis. -/
theorem aRoot_at_i (i j : ℕ) (s0 s1 : ℝ) (k : Fin 8) (h : (k : ℕ) = i) :
    aRoot i j s0 s1 k = s0 * (1 / Real.sqrt 2) := by
  simp [aRoot, h]

/-- Value of a Family-A root at its second active axis. -/
theorem aRoot_at_j (i j : ℕ) (s0 s1 : ℝ) (hij : i ≠ j) (k : Fin 8)
    (h : (k : ℕ) = j) : aRoot i j s0 s1 k = s1 * (1 / Real.sqrt 2) := by
  simp [aRoot, h, (Ne.symm hij)]

/-- Value of a Family-A root away from both active axes. -/
theorem aRoot_at_other (i j : ℕ) (s0 s1 : ℝ) (k : Fin 8)
    (h1 : (k : ℕ) ≠ i) (h2 : (k : ℕ) ≠ j) : aRoot i j s0 s1 k = 0 := by
  simp [aRoot, h1, h2]

/-- Every Family-A vector has exactly two nonzero components, each of
magnitude `1 / sqrt 2`. -/
theorem familyA_two_nonzero : ∀ v ∈ familyA, ∃ a b : Fin 8, a ≠ b ∧
    v a ≠ 0 ∧ v b ≠ 0 ∧ |v a| = 1 / Real.sqrt 2 ∧ |v b| = 1 / Real.sqrt 2 ∧
    ∀ k, k ≠ a → k ≠ b → v k = 0 := by
  intro v hv
  simp only [familyA, List.mem_flatMap, List.mem_map, List.mem_range,
    List.mem_range'_1, List.mem_cons, List.mem_singleton,
    List.not_mem_nil, or_false] at hv
  obtain ⟨i, hi, j, ⟨hij, hj⟩, s0, hs0, s1, hs1, rfl⟩ := hv
  have hi8 : i < 8 := by omega
  have hj8 : j < 8 := by omega
  have hij' : i ≠ j := by omega
  have hne : (1 : ℝ) / Real.sqrt 2 ≠ 0 := by positivity
  have habs : |(1 : ℝ) / Real.sqrt 2| = 1 / Real.sqrt 2 :=
    abs_of_nonneg (by positivity)
  have hvi : aRoot i j s0 s1 ⟨i, hi8⟩ = s0 * (1 / Real.sqrt 2) :=
    aRoot_at_i i j s0 s1 _ rfl
  have hvj : aRoot i j s0 s1 ⟨j, hj8⟩ = s1 * (1 / Real.sqrt 2) :=
    aRoot_at_j i j s0 s1 hij' _ rfl
  refine ⟨⟨i, hi8⟩, ⟨j, hj8⟩, by simp [Fin.ext_iff, hij'], ?_, ?_, ?_, ?_, ?_⟩
  · rw [hvi]
    rcases hs0 with rfl | rfl <;> simpa using hne
  · rw [hvj]
    rcases hs1 with rfl | rfl <;> simpa using hne
  · rw [hvi]
    rcases hs0 with rfl | rfl <;> simp [abs_mul, habs]
  · rw [hvj]
    rcases hs1 with rfl | rfl <;> simp [abs_mul, habs]
  · intro k hk1 hk2
    refine aRoot_at_other i j s0 s1 k ?_ ?_
    · exact fun h => hk1 (Fin.ext h)
    · exact fun h => hk2 (Fin.ext h)

/-- Every normalized mask vector has unit Euclidean norm. -/
theorem bRoot_norm (m : ℕ) : vnorm (bRoot m) = 1 := by
  have hraw : ∀ b : Fin 8, bRootRaw m b ^ 2 = 1 / 4 := by
    intro b
    unfold bRootRaw
    split <;> norm_num
  have hsum : (∑ b, bRootRaw m b ^ 2) = 2 := by
    rw [Finset.sum_congr rfl fun b _ => hraw b]
    simp [Finset.sum_const, Finset.card_univ]
    norm_num
  have hpos : (0 : ℝ) < Real.sqrt (∑ b, bRootRaw m b ^ 2) := by
    rw [hsum]
    exact Real.sqrt_pos.mpr (by norm_num)
  have hb : bRoot m = fun b => bRootRaw m b / Real.sqrt 2 := by
    simp only [bRoot, hsum]
    rw [if_pos (Real.sqrt_pos.mpr (by norm_num : (0:ℝ) < 2))]
  rw [hb, vnorm]
  have hone : (∑ b, (bRootRaw m b / Real.sqrt 2) ^ 2) = 1 := by
    have h2 : (Real.sqrt 2) ^ 2 = 2 := Real.sq_sqrt (by norm_num)
    calc (∑ b, (bRootRaw m b / Real.sqrt 2) ^ 2)
        = ∑ b, bRootRaw m b ^ 2 / 2 := by
          refine Finset.sum_congr rfl fun b _ => ?_
          rw [div_pow, h2]
      _ = 2 / 2 := by rw [← Finset.sum_div, hsum]
      _ = 1 := by norm_num
  rw [hone, Real.sqrt_one]

/-- C6. Root generation returns exactly 240 vectors; each of the first 112
(Family A) has exactly two nonzero components of magnitude `1 / sqrt 2`; the
remaining 128 (Family B) are exactly the normalized even-parity sign-pattern
vectors taken in ascending bit-mask order, and each has unit norm. -/
theorem e8_root_system_spec :
    generate_e8_roots.length = 240 ∧
    (∀ k < 112, ∃ a b : Fin 8, a ≠ b ∧
      generate_e8_roots.getD k (fun _ => 0) a ≠ 0 ∧
      generate_e8_roots.getD k (fun _ => 0) b ≠ 0 ∧
      |generate_e8_roots.getD k (fun _ => 0) a| = 1 / Real.sqrt 2 ∧
      |generate_e8_roots.getD k (fun _ => 0) b| = 1 / Real.sqrt 2 ∧
      ∀ c, c ≠ a → c ≠ b → generate_e8_roots.getD k (fun _ => 0) c = 0) ∧
    generate_e8_roots.drop 112 = evenMasks.map bRoot ∧
    List.Sorted (· < ·) evenMasks ∧
    evenMasks.length = 128 ∧
    (∀ m ∈ evenMasks, m < 256 ∧ minusCount m % 2 = 0) ∧
    (∀ m ∈ evenMasks, vnorm (bRoot m) = 1) := by
  refine ⟨roots_length, ?_, ?_, by decide, evenMasks_length, by decide,
    fun m _ => bRoot_norm m⟩
  · intro k hk
    have hkA : k < familyA.length := by rw [familyA_length]; exact hk
    have hmem : generate_e8_roots.getD k (fun _ => 0) ∈ familyA := by
      rw [roots_eq_append, List.getD_append _ _ _ _ hkA,
        List.getD_eq_getElem _ _ hkA]
      exact List.getElem_mem hkA
    exact familyA_two_nonzero _ hmem
  · rw [roots_eq_append, List.drop_left' familyA_length]
    rfl

/-- Witness for C6: the Family-A structure at the concrete index 0. -/
theorem e8_root_system_spec_witness :
    ∃ a b : Fin 8, a ≠ b ∧
      generate_e8_roots.getD 0 (fun _ => 0) a ≠ 0 ∧
      generate_e8_roots.getD 0 (fun _ => 0) b ≠ 0 ∧
      |generate_e8_roots.getD 0 (fun _ => 0) a| = 1 / Real.sqrt 2 ∧
      |generate_e8_roots.getD 0 (fun _ => 0) b| = 1 / Real.sqrt 2 ∧
      ∀ c, c ≠ a → c ≠ b → generate_e8_roots.getD 0 (fun _ => 0) c = 0 :=
  e8_root_system_spec.2.1 0 (by norm_num)

/-- Applying the torus macros only changes the torus angles, the angular
velocities and the random-stream position. -/
theorem applyTorusMacros_shape (u : RngStream) (s : EngineState) :
    ∃ th om ri, applyTorusMacros u s =
      { s with theta := th, omega := om, rngIdx := ri } := by
  unfold applyTorusMacros
  by_cases h : (1e-6 : ℝ) < s.macros.EntropyBloom
  · rw [if_pos h]
    exact ⟨_, _, _, rfl⟩
  · rw [if_neg h]
    exact ⟨_, _, _, rfl⟩

/-- C7. After a control step, each node's phase offset is PhaseGain times the
mean of the sines of the root phases at the node's sparse indices (phases
taken at the post-step torus angles), and its amplitude factor is
1 + AmpGain times the mean of the cosines, clamped to [0, 4]; consequently
with AmpGain, PhaseGain and EntropyBloom all zero, one tick leaves
amp_factor exactly 1 and phase_offset exactly 0. -/
theorem controlStep_modulation (u : RngStream) (s : EngineState) (i : ℕ)
    (hi : i < s.numNodes) (hlen : (s.sparseIdx.getD i []).length ≠ 0) :
    (controlStep u s).dphi i = s.macros.PhaseGain *
      (((s.sparseIdx.getD i []).map fun k =>
          Real.sin (rootPhase (controlStep u s).theta k)).sum /
        (s.sparseIdx.getD i []).length) ∧
    (controlStep u s).damp i = npClip (1 + s.macros.AmpGain *
      (((s.sparseIdx.getD i []).map fun k =>
          Real.cos (rootPhase (controlStep u s).theta k)).sum /
        (s.sparseIdx.getD i []).length)) 0 4 ∧
    (s.macros.AmpGain = 0 → s.macros.PhaseGain = 0 →
      s.macros.EntropyBloom = 0 →
      (controlStep u s).damp i = 1 ∧ (controlStep u s).dphi i = 0) := by
  obtain ⟨th, om, ri, hshape⟩ := applyTorusMacros_shape u s
  have hmax : (max 1 (s.sparseIdx.getD i []).length : ℕ) =
      (s.sparseIdx.getD i []).length :=
    Nat.max_eq_right (Nat.one_le_iff_ne_zero.mpr hlen)
  have hdphi : (controlStep u s).dphi i = s.macros.PhaseGain *
      (((s.sparseIdx.getD i []).map fun k =>
          Real.sin (rootPhase (controlStep u s).theta k)).sum /
        (s.sparseIdx.getD i []).length) := by
    simp only [controlStep, hshape]
    rw [if_pos hi, hmax]
    ring
  have hdamp : (controlStep u s).damp i = npClip (1 + s.macros.AmpGain *
      (((s.sparseIdx.getD i []).map fun k =>
          Real.cos (rootPhase (controlStep u s).theta k)).sum /
        (s.sparseIdx.getD i []).length)) 0 4 := by
    simp only [controlStep, hshape]
    rw [if_pos hi, hmax]
    ring_nf
  refine ⟨hdphi, hdamp, fun hA hP _ => ⟨?_, ?_⟩⟩
  · rw [hdamp, hA]
    norm_num [npClip]
  · rw [hdphi, hP]
    norm_num

/-- Witness for C7: node 0 of a freshly constructed default engine. -/
theorem controlStep_modulation_witness :
    ((controlStep zeroStream (initEngine 8 48000 1000)).dphi 0 =
      (initEngine 8 48000 1000).macros.PhaseGain *
        ((((initEngine 8 48000 1000).sparseIdx.getD 0 []).map fun k =>
            Real.sin (rootPhase
              (controlStep zeroStream (initEngine 8 48000 1000)).theta
              k)).sum /
          ((initEngine 8 48000 1000).sparseIdx.getD 0 []).length)) ∧
    ((controlStep zeroStream (initEngine 8 48000 1000)).damp 0 =
      npClip (1 + (initEngine 8 48000 1000).macros.AmpGain *
        ((((initEngine 8 48000 1000).sparseIdx.getD 0 []).map fun k =>
            Real.cos (rootPhase
              (controlStep zeroStream (initEngine 8 48000 1000)).theta
              k)).sum /
          ((initEngine 8 48000 1000).sparseIdx.getD 0 []).length)) 0 4) ∧
    ((initEngine 8 48000 1000).macros.AmpGain = 0 →
      (initEngine 8 48000 1000).macros.PhaseGain = 0 →
      (initEngine 8 48000 1000).macros.EntropyBloom = 0 →
      (controlStep zeroStream (initEngine 8 48000 1000)).damp 0 = 1 ∧
        (controlStep zeroStream (initEngine 8 48000 1000)).dphi 0 = 0) :=
  controlStep_modulation zeroStream (initEngine 8 48000 1000) 0
    (by norm_num [initEngine]) (by decide)

/-- Control accounting for zero samples is a no-op. -/
theorem processControlLoop_zero (u : RngStream) (s : EngineState) :
    processControlLoop u s 0 = s := by
  unfold processControlLoop
  simp

/-- C10. Rendering zero samples returns two empty channels, fires no control
tick and leaves the whole engine state unchanged (torus, node states,
oscillator phases, modulation outputs, tick counter and sample counter),
provided each stored oscillator phase lies in `[0, 2*pi)` as the renderer
maintains. -/
theorem render_zero_samples (u : RngStream) (s : EngineState) (g : ℝ)
    (hp : ∀ i, 0 ≤ s.nodePhase i ∧ s.nodePhase i < 2 * Real.pi) :
    render u s 0 g = ([], [], s) := by
  simp only [render, processControlLoop_zero, Nat.cast_zero, mul_zero,
    add_zero, List.ofFn_zero]
  have hph : (fun i => fmod (s.nodePhase i) (2 * Real.pi)) = s.nodePhase :=
    funext fun i => fmod_eq_self (hp i).1 (hp i).2
  rw [hph]

/-- Witness for C10: a fresh default engine, whose oscillator phases are all
zero. -/
theorem render_zero_samples_witness :
    render zeroStream (initEngine 8 48000 1000) 0 0.2 =
      ([], [], initEngine 8 48000 1000) :=
  render_zero_samples zeroStream (initEngine 8 48000 1000) 0.2
    (fun _ => ⟨le_rfl, Real.two_pi_pos⟩)

/-- A control step does not move the sample counter. -/
theorem controlStep_sampleCounter (u : RngStream) (s : EngineState) :
    (controlStep u s).sampleCounter = s.sampleCounter := by
  obtain ⟨th, om, ri, hshape⟩ := applyTorusMacros_shape u s
  simp only [controlStep, hshape]

/-- A control step does not change the control chunk size. -/
theorem controlStep_spc (u : RngStream) (s : EngineState) :
    (controlStep u s).samplesPerControl = s.samplesPerControl := by
  obtain ⟨th, om, ri, hshape⟩ := applyTorusMacros_shape u s
  simp only [controlStep, hshape]

/-- Single-sample accounting preserves the control chunk size. -/
theorem tickAdvance_spc (u : RngStream) (s : EngineState) :
    (tickAdvance u s).samplesPerControl = s.samplesPerControl := by
  unfold tickAdvance
  by_cases hc : s.samplesPerControl ≤ s.sampleCounter + 1
  · rw [if_pos hc, controlStep_spc]
  · rw [if_neg hc]

/-- Single-sample accounting preserves the counter invariant. -/
theorem tickAdvance_inv (u : RngStream) (s : EngineState)
    (h : s.sampleCounter < s.samplesPerControl) :
    (tickAdvance u s).sampleCounter < (tickAdvance u s).samplesPerControl := by
  unfold tickAdvance
  by_cases hc : s.samplesPerControl ≤ s.sampleCounter + 1
  · rw [if_pos hc, controlStep_spc, controlStep_sampleCounter]
    show (0 : ℕ) < s.samplesPerControl
    omega
  · rw [if_neg hc]
    show s.sampleCounter + 1 < s.samplesPerControl
    omega

/-- Iterating single-sample accounting below the tick threshold only moves
the counter. -/
theorem tickAdvance_iter_lt (u : RngStream) :
    ∀ (k : ℕ) (s : EngineState),
      s.sampleCounter + k < s.samplesPerControl →
      (tickAdvance u)^[k] s =
        { s with sampleCounter := s.sampleCounter + k } := by
  intro k
  induction k with
  | zero => intro s _; rfl
  | succ k ih =>
    intro s h
    rw [Function.iterate_succ_apply]
    have hstep : tickAdvance u s =
        { s with sampleCounter := s.sampleCounter + 1 } := by
      unfold tickAdvance
      rw [if_neg (show ¬ s.samplesPerControl ≤ s.sampleCounter + 1 by omega)]
    rw [hstep, ih { s with sampleCounter := s.sampleCounter + 1 }
      (by show s.sampleCounter + 1 + k < s.samplesPerControl; omega)]
    exact congrArg (fun m => { s with sampleCounter := m })
      (show s.sampleCounter + 1 + k = s.sampleCounter + (k + 1) by omega)

/-- Iterating single-sample accounting exactly up to the threshold resets
the counter and fires one control step. -/
theorem tickAdvance_iter_tick (u : RngStream) (k : ℕ) (s : EngineState)
    (hk : 1 ≤ k) (h : s.sampleCounter + k = s.samplesPerControl) :
    (tickAdvance u)^[k] s = controlStep u { s with sampleCounter := 0 } := by
  obtain ⟨k, rfl⟩ : ∃ j, k = j + 1 := ⟨k - 1, by omega⟩
  rw [Function.iterate_succ_apply']
  rw [tickAdvance_iter_lt u k s (by omega)]
  unfold tickAdvance
  rw [if_pos (by
    show s.samplesPerControl ≤ s.sampleCounter + k + 1
    omega)]

/-- The chunked control loop computes exactly `remaining` iterations of the
single-sample accounting, as long as the counter invariant holds. -/
theorem processControlLoop_eq_iter (u : RngStream) :
    ∀ (n : ℕ) (s : EngineState),
      s.sampleCounter < s.samplesPerControl →
      processControlLoop u s n = (tickAdvance u)^[n] s := by
  intro n
  induction n using Nat.strong_induction_on with
  | _ n ih =>
    intro s hinv
    by_cases hn : 0 < n
    · have hs : 0 < min (s.samplesPerControl - s.sampleCounter) n := by omega
      rw [processControlLoop, dif_pos hn, dif_pos hs]
      by_cases ht : s.samplesPerControl ≤ s.sampleCounter +
          min (s.samplesPerControl - s.sampleCounter) n
      · rw [if_pos ht]
        have htick : (tickAdvance u)^[min (s.samplesPerControl -
            s.sampleCounter) n] s = controlStep u
              { s with sampleCounter := 0 } :=
          tickAdvance_iter_tick u _ s hs (by omega)
        have hinv2 : (controlStep u
            { s with sampleCounter := 0 }).sampleCounter <
            (controlStep u { s with sampleCounter := 0 }).samplesPerControl := by
          rw [controlStep_spc, controlStep_sampleCounter]
          show (0 : ℕ) < s.samplesPerControl
          omega
        rw [ih _ (by omega) _ hinv2, ← htick, ← Function.iterate_add_apply]
        congr 1
        omega
      · rw [if_neg ht]
        have hlt : (tickAdvance u)^[min (s.samplesPerControl -
            s.sampleCounter) n] s = { s with sampleCounter :=
              (s.sampleCounter + min (s.samplesPerControl - s.sampleCounter) n) } :=
          tickAdvance_iter_lt u _ s (by omega)
        have hinv2 : ({ s with sampleCounter :=
            (s.sampleCounter + min (s.samplesPerControl - s.sampleCounter) n) } :
              EngineState).sampleCounter <
            ({ s with sampleCounter :=
              (s.sampleCounter + min (s.samplesPerControl - s.sampleCounter) n) } :
                EngineState).samplesPerControl := by
          show s.sampleCounter + min (s.samplesPerControl - s.sampleCounter) n <
            s.samplesPerControl
          omega
        rw [ih _ (by omega) _ hinv2, ← hlt, ← Function.iterate_add_apply]
        congr 1
        omega
    · have hz : n = 0 := by omega
      subst hz
      rw [processControlLoop_zero]
      rfl

/-- The counter invariant survives any number of single-sample steps. -/
theorem tickAdvance_iter_inv (u : RngStream) :
    ∀ (k : ℕ) (s : EngineState),
      s.sampleCounter < s.samplesPerControl →
      ((tickAdvance u)^[k] s).sampleCounter <
        ((tickAdvance u)^[k] s).samplesPerControl := by
  intro k
  induction k with
  | zero => intro s h; exact h
  | succ k ih =>
    intro s h
    rw [Function.iterate_succ_apply]
    exact ih _ (tickAdvance_inv u s h)

/-- The counter invariant survives the chunked control loop. -/
theorem processControlLoop_inv (u : RngStream) (n : ℕ) (s : EngineState)
    (h : s.sampleCounter < s.samplesPerControl) :
    (processControlLoop u s n).sampleCounter <
      (processControlLoop u s n).samplesPerControl := by
  rw [processControlLoop_eq_iter u n s h]
  exact tickAdvance_iter_inv u n s h

/-- C3 core: control accounting is additive in the sample count. -/
theorem processControlLoop_add (u : RngStream) (s : EngineState) (m n : ℕ)
    (h : s.sampleCounter < s.samplesPerControl) :
    processControlLoop u (processControlLoop u s m) n =
      processControlLoop u s (m + n) := by
  rw [processControlLoop_eq_iter u m s h,
    processControlLoop_eq_iter u n _ (tickAdvance_iter_inv u m s h),
    processControlLoop_eq_iter u (m + n) s h,
    ← Function.iterate_add_apply]
  congr 1
  omega

/-- The torus-macro update neither reads nor writes the oscillator
phases. -/
theorem applyTorusMacros_nodePhase (u : RngStream) (s : EngineState)
    (p : ℕ → ℝ) :
    applyTorusMacros u { s with nodePhase := p } =
      { applyTorusMacros u s with nodePhase := p } := by
  unfold applyTorusMacros
  by_cases h : (1e-6 : ℝ) < s.macros.EntropyBloom
  · rw [if_pos h, if_pos h]
  · rw [if_neg h, if_neg h]

/-- A control step neither reads nor writes the oscillator phases. -/
theorem controlStep_nodePhase (u : RngStream) (s : EngineState)
    (p : ℕ → ℝ) :
    controlStep u { s with nodePhase := p } =
      { controlStep u s with nodePhase := p } := by
  simp only [controlStep, applyTorusMacros_nodePhase]

/-- Single-sample accounting neither reads nor writes the oscillator
phases. -/
theorem tickAdvance_nodePhase (u : RngStream) (s : EngineState)
    (p : ℕ → ℝ) :
    tickAdvance u { s with nodePhase := p } =
      { tickAdvance u s with nodePhase := p } := by
  unfold tickAdvance
  by_cases hc : s.samplesPerControl ≤ s.sampleCounter + 1
  · rw [if_pos hc, if_pos hc]
    exact controlStep_nodePhase u { s with sampleCounter := 0 } p
  · rw [if_neg hc, if_neg hc]

/-- Iterated single-sample accounting commutes with overwriting the
oscillator phases. -/
theorem tickAdvance_iter_nodePhase (u : RngStream) :
    ∀ (k : ℕ) (s : EngineState) (p : ℕ → ℝ),
      (tickAdvance u)^[k] { s with nodePhase := p } =
        { (tickAdvance u)^[k] s with nodePhase := p } := by
  intro k
  induction k with
  | zero => intro s p; rfl
  | succ k ih =>
    intro s p
    rw [Function.iterate_succ_apply, Function.iterate_succ_apply,
      tickAdvance_nodePhase, ih]

/-- The chunked control loop commutes with overwriting the oscillator
phases. -/
theorem processControlLoop_nodePhase (u : RngStream) (n : ℕ)
    (s : EngineState) (p : ℕ → ℝ)
    (h : s.sampleCounter < s.samplesPerControl) :
    processControlLoop u { s with nodePhase := p } n =
      { processControlLoop u s n with nodePhase := p } := by
  rw [processControlLoop_eq_iter u n s h,
    processControlLoop_eq_iter u n { s with nodePhase := p } h,
    tickAdvance_iter_nodePhase]

/-- The state returned by `render` is the control-loop state with only the
oscillator phases rewritten. -/
theorem render_state_eq (u : RngStream) (s : EngineState) (n : ℕ) (g : ℝ) :
    ∃ p, (render u s n g).2.2 =
      { processControlLoop u s n with nodePhase := p } :=
  ⟨_, rfl⟩

/-- Folding render calls yields the control-loop state of the total sample
count, up to the oscillator phases. -/
theorem foldl_render_state (u : RngStream) (g : ℝ) :
    ∀ (l : List ℕ) (s : EngineState),
      s.sampleCounter < s.samplesPerControl →
      ∃ p, l.foldl (fun st n => (render u st n g).2.2) s =
        { processControlLoop u s l.sum with nodePhase := p } := by
  intro l
  induction l with
  | nil =>
    intro s _
    exact ⟨s.nodePhase, by rw [List.sum_nil, processControlLoop_zero]; rfl⟩
  | cons n ns ih =>
    intro s h
    rw [List.foldl_cons, List.sum_cons]
    obtain ⟨p1, h1⟩ := render_state_eq u s n g
    have hinv1 : ((render u s n g).2.2).sampleCounter <
        ((render u s n g).2.2).samplesPerControl := by
      rw [h1]
      show (processControlLoop u s n).sampleCounter <
        (processControlLoop u s n).samplesPerControl
      exact processControlLoop_inv u n s h
    obtain ⟨p2, h2⟩ := ih ((render u s n g).2.2) hinv1
    refine ⟨p2, ?_⟩
    rw [h2, h1, processControlLoop_nodePhase u ns.sum
      (processControlLoop u s n) p1 (processControlLoop_inv u n s h),
      processControlLoop_add u s n ns.sum h]

/-- C3. Splitting a render of `N` samples into any sequence of render calls
whose sample counts sum to `N` fires the same number of control ticks and
produces the same torus angles, torus velocities, and per-node qutrit state
vectors as the single call, given the counter invariant that construction
establishes and all stepping preserves. -/
theorem render_split_same_control_state (u : RngStream) (g : ℝ)
    (s : EngineState) (l : List ℕ)
    (hinv : s.sampleCounter < s.samplesPerControl) :
    (l.foldl (fun st n => (render u st n g).2.2) s).ticks =
        ((render u s l.sum g).2.2).ticks ∧
    (l.foldl (fun st n => (render u st n g).2.2) s).theta =
        ((render u s l.sum g).2.2).theta ∧
    (l.foldl (fun st n => (render u st n g).2.2) s).omega =
        ((render u s l.sum g).2.2).omega ∧
    (l.foldl (fun st n => (render u st n g).2.2) s).qs =
        ((render u s l.sum g).2.2).qs := by
  obtain ⟨p, hp⟩ := foldl_render_state u g l s hinv
  obtain ⟨q, hq⟩ := render_state_eq u s l.sum g
  rw [hp, hq]
  exact ⟨rfl, rfl, rfl, rfl⟩

/-- Witness for C3: splitting one sample into two renders of 1 and 0
samples on a fresh default engine. -/
theorem render_split_same_control_state_witness :
    (([1, 0] : List ℕ).foldl
        (fun st n => (render zeroStream st n 0.2).2.2)
        (initEngine 8 48000 1000)).ticks =
      ((render zeroStream (initEngine 8 48000 1000)
        ([1, 0] : List ℕ).sum 0.2).2.2).ticks ∧
    (([1, 0] : List ℕ).foldl
        (fun st n => (render zeroStream st n 0.2).2.2)
        (initEngine 8 48000 1000)).theta =
      ((render zeroStream (initEngine 8 48000 1000)
        ([1, 0] : List ℕ).sum 0.2).2.2).theta ∧
    (([1, 0] : List ℕ).foldl
        (fun st n => (render zeroStream st n 0.2).2.2)
        (initEngine 8 48000 1000)).omega =
      ((render zeroStream (initEngine 8 48000 1000)
        ([1, 0] : List ℕ).sum 0.2).2.2).omega ∧
    (([1, 0] : List ℕ).foldl
        (fun st n => (render zeroStream st n 0.2).2.2)
        (initEngine 8 48000 1000)).qs =
      ((render zeroStream (initEngine 8 48000 1000)
        ([1, 0] : List ℕ).sum 0.2).2.2).qs :=
  render_split_same_control_state zeroStream 0.2 (initEngine 8 48000 1000)
    [1, 0]
    (Nat.lt_of_lt_of_le Nat.zero_lt_one (Nat.le_max_left 1 _))

/-- The torus-macro update never reads CosmicDepth or SpatialWarp. -/
theorem applyTorusMacros_inert (u : RngStream) (s : EngineState)
    (d : ℤ) (w : ℝ) :
    applyTorusMacros u (setInertMacros s d w) =
      setInertMacros (applyTorusMacros u s) d w := by
  unfold setInertMacros applyTorusMacros
  by_cases h : (1e-6 : ℝ) < s.macros.EntropyBloom
  · rw [if_pos h, if_pos h]
  · rw [if_neg h, if_neg h]

/-- A control step never reads CosmicDepth or SpatialWarp. -/
theorem controlStep_inert (u : RngStream) (s : EngineState)
    (d : ℤ) (w : ℝ) :
    controlStep u (setInertMacros s d w) =
      setInertMacros (controlStep u s) d w := by
  simp only [controlStep, applyTorusMacros_inert]
  rfl

/-- Single-sample accounting never reads CosmicDepth or SpatialWarp. -/
theorem tickAdvance_inert (u : RngStream) (s : EngineState)
    (d : ℤ) (w : ℝ) :
    tickAdvance u (setInertMacros s d w) =
      setInertMacros (tickAdvance u s) d w := by
  unfold setInertMacros tickAdvance
  by_cases hc : s.samplesPerControl ≤ s.sampleCounter + 1
  · rw [if_pos hc, if_pos hc]
    exact controlStep_inert u { s with sampleCounter := 0 } d w
  · rw [if_neg hc, if_neg hc]

/-- Iterated single-sample accounting never reads CosmicDepth or
SpatialWarp. -/
theorem tickAdvance_iter_inert (u : RngStream) :
    ∀ (k : ℕ) (s : EngineState) (d : ℤ) (w : ℝ),
      (tickAdvance u)^[k] (setInertMacros s d w) =
        setInertMacros ((tickAdvance u)^[k] s) d w := by
  intro k
  induction k with
  | zero => intro s d w; rfl
  | succ k ih =>
    intro s d w
    rw [Function.iterate_succ_apply, Function.iterate_succ_apply,
      tickAdvance_inert, ih]

/-- The chunked control loop never reads CosmicDepth or SpatialWarp. -/
theorem processControlLoop_inert (u : RngStream) (n : ℕ) (s : EngineState)
    (d : ℤ) (w : ℝ) (h : s.sampleCounter < s.samplesPerControl) :
    processControlLoop u (setInertMacros s d w) n =
      setInertMacros (processControlLoop u s n) d w := by
  rw [processControlLoop_eq_iter u n s h,
    processControlLoop_eq_iter u n (setInertMacros s d w) h,
    tickAdvance_iter_inert]

/-- A render call never reads CosmicDepth or SpatialWarp: same channels,
and the inert fields ride along unchanged in the final state. -/
theorem render_inert (u : RngStream) (s : EngineState) (n : ℕ) (g : ℝ)
    (d : ℤ) (w : ℝ) (h : s.sampleCounter < s.samplesPerControl) :
    (render u (setInertMacros s d w) n g).1 = (render u s n g).1 ∧
    (render u (setInertMacros s d w) n g).2.1 = (render u s n g).2.1 ∧
    (render u (setInertMacros s d w) n g).2.2 =
      setInertMacros ((render u s n g).2.2) d w := by
  simp only [render, processControlLoop_inert u n s d w h]
  exact ⟨rfl, rfl, rfl⟩

/-- A render call leaves the counter invariant intact. -/
theorem render_inv (u : RngStream) (s : EngineState) (n : ℕ) (g : ℝ)
    (h : s.sampleCounter < s.samplesPerControl) :
    ((render u s n g).2.2).sampleCounter <
      ((render u s n g).2.2).samplesPerControl := by
  obtain ⟨p, hp⟩ := render_state_eq u s n g
  rw [hp]
  show (processControlLoop u s n).sampleCounter <
    (processControlLoop u s n).samplesPerControl
  exact processControlLoop_inv u n s h

/-- C8. CosmicDepth and SpatialWarp have no effect: overwriting them with
arbitrary values changes no output block of any call sequence, and the
internal state after every call differs only in those two stored macro
fields. -/
theorem inert_macros_no_effect (u : RngStream) (d : ℤ) (w : ℝ) :
    ∀ (calls : List (ℕ × ℝ)) (s : EngineState),
      s.sampleCounter < s.samplesPerControl →
      (runCalls u (setInertMacros s d w) calls).1 =
          (runCalls u s calls).1 ∧
      (runCalls u (setInertMacros s d w) calls).2 =
          setInertMacros ((runCalls u s calls).2) d w := by
  intro calls
  induction calls with
  | nil => intro s _; exact ⟨rfl, rfl⟩
  | cons c cs ih =>
    intro s h
    obtain ⟨hL, hR, hS⟩ := render_inert u s c.1 c.2 d w h
    obtain ⟨ih1, ih2⟩ := ih ((render u s c.1 c.2).2.2) (render_inv u s c.1 c.2 h)
    constructor
    · show ((render u (setInertMacros s d w) c.1 c.2).1,
          (render u (setInertMacros s d w) c.1 c.2).2.1) ::
            (runCalls u ((render u (setInertMacros s d w) c.1 c.2).2.2) cs).1 =
        ((render u s c.1 c.2).1, (render u s c.1 c.2).2.1) ::
          (runCalls u ((render u s c.1 c.2).2.2) cs).1
      rw [hL, hR, hS, ih1]
    · show (runCalls u ((render u (setInertMacros s d w) c.1 c.2).2.2) cs).2 =
        setInertMacros ((runCalls u ((render u s c.1 c.2).2.2) cs).2) d w
      rw [hS, ih2]

/-- Witness for C8: one render call on a fresh default engine with the two
inert macros overwritten. -/
theorem inert_macros_no_effect_witness :
    (runCalls zeroStream
        (setInertMacros (initEngine 8 48000 1000) 9 0.5) [(1, 0.2)]).1 =
      (runCalls zeroStream (initEngine 8 48000 1000) [(1, 0.2)]).1 ∧
    (runCalls zeroStream
        (setInertMacros (initEngine 8 48000 1000) 9 0.5) [(1, 0.2)]).2 =
      setInertMacros
        ((runCalls zeroStream (initEngine 8 48000 1000) [(1, 0.2)]).2) 9 0.5 :=
  inert_macros_no_effect zeroStream 9 0.5 [(1, 0.2)] (initEngine 8 48000 1000)
    (Nat.lt_of_lt_of_le Nat.zero_lt_one (Nat.le_max_left 1 _))

/-- C2. Determinism: the engine is a pure function of its construction
parameters, macro values, seeded draw stream and call sequence, so two
engines built alike and driven alike return identical block lists and
identical final states. -/
theorem engines_deterministic (u : RngStream) (n : ℕ) (sr cr : ℝ)
    (m : Macros) (calls : List (ℕ × ℝ)) (s1 s2 : EngineState)
    (h1 : s1 = { initEngine n sr cr with macros := m })
    (h2 : s2 = { initEngine n sr cr with macros := m }) :
    runCalls u s1 calls = runCalls u s2 calls := by
  rw [h1, h2]

/-- Witness for C2: two copies of the default engine with default macros
and a one-call sequence. -/
theorem engines_deterministic_witness :
    runCalls zeroStream
        { initEngine 8 48000 1000 with macros := defaultMacros } [(1, 0.2)] =
      runCalls zeroStream
        { initEngine 8 48000 1000 with macros := defaultMacros } [(1, 0.2)] :=
  engines_deterministic zeroStream 8 48000 1000 defaultMacros [(1, 0.2)]
    _ _ rfl rfl

/-- Squared norm along the first-axis ray. -/
theorem raySum (t : ℝ) : (∑ b, rayVec t b * rayVec t b) = t * t := by
  simp [rayVec, Fin.sum_univ_eight]

/-- At the bound itself the projection returns the vector unchanged. -/
theorem ray_at_bound : softProject (rayVec 1.2) 1.2 0 = 1.2 := by
  simp only [softProject, raySum]
  rw [if_pos le_rfl]
  simp [rayVec]

/-- Above the bound the projection scales the ray by the tanh compression
factor. -/
theorem ray_above_bound (t : ℝ) (ht : 1.2 < t) :
    softProject (rayVec t) 1.2 0 =
      t * (1.2 * Real.tanh (Real.sqrt (t * t) / 1.2) /
        (Real.sqrt (t * t) + 1e-12)) := by
  simp only [softProject, raySum]
  rw [if_neg (by nlinarith)]
  simp [rayVec]

/-- The hyperbolic tangent is continuous. -/
theorem tanh_continuous : Continuous Real.tanh := by
  have h : Real.tanh = fun x => Real.sinh x / Real.cosh x :=
    funext Real.tanh_eq_sinh_div_cosh
  rw [h]
  exact Real.continuous_sinh.div Real.continuous_cosh
    fun x => (Real.cosh_pos x).ne'

/-- Approaching the bound from above, the projected ray tends to the
compressed value `1.2 * (1.2 * tanh 1 / (1.2 + 1e-12))`, not to the
unchanged boundary value. -/
theorem ray_tendsto_above :
    Filter.Tendsto (fun t : ℝ => softProject (rayVec t) 1.2 0)
      (nhdsWithin 1.2 (Set.Ioi 1.2))
      (nhds (1.2 * (1.2 * Real.tanh 1 / (1.2 + 1e-12)))) := by
  have hsq : Continuous fun t : ℝ => Real.sqrt (t * t) :=
    (continuous_id.mul continuous_id).sqrt
  have hc : ContinuousAt (fun t : ℝ => t *
      (1.2 * Real.tanh (Real.sqrt (t * t) / 1.2) /
        (Real.sqrt (t * t) + 1e-12))) 1.2 := by
    apply ContinuousAt.mul continuousAt_id
    apply ContinuousAt.div
    · exact (continuous_const.mul
        (tanh_continuous.comp (hsq.div_const 1.2))).continuousAt
    · exact (hsq.add continuous_const).continuousAt
    · positivity
  have hg := hc.tendsto
  rw [show (1.2 : ℝ) * (1.2 * Real.tanh (Real.sqrt (1.2 * 1.2) / 1.2) /
      (Real.sqrt (1.2 * 1.2) + 1e-12)) =
      1.2 * (1.2 * Real.tanh 1 / (1.2 + 1e-12)) from by
    rw [Real.sqrt_mul_self (by norm_num : (0:ℝ) ≤ 1.2)]
    norm_num] at hg
  have hev : (fun t : ℝ => t * (1.2 * Real.tanh (Real.sqrt (t * t) / 1.2) /
      (Real.sqrt (t * t) + 1e-12))) =ᶠ[nhdsWithin 1.2 (Set.Ioi 1.2)]
      fun t => softProject (rayVec t) 1.2 0 := by
    filter_upwards [eventually_mem_nhdsWithin] with t ht
    exact (ray_above_bound t ht).symm
  exact (Filter.tendsto_congr' hev).mp (hg.mono_left nhdsWithin_le_nhds)

/-- The one-sided limit value is strictly below the boundary value. -/
theorem jump_lt : 1.2 * (1.2 * Real.tanh 1 / (1.2 + 1e-12)) < 1.2 := by
  have h1 : Real.tanh 1 < 1 := tanh_lt_one 1
  have h0 : 0 ≤ Real.tanh 1 := tanh_nonneg (by norm_num)
  have h2 : 1.2 * Real.tanh 1 / (1.2 + 1e-12) < 1 := by
    rw [div_lt_one (by norm_num)]
    nlinarith
  nlinarith

/-- C5 counterexample. The claim asserts the soft radial projection is
continuous with no discontinuity at the bound; at the concrete input
`1.2 * e0` (the first-axis ray at the default bound 1.2) the map is not
continuous: the one-sided limit from above is `1.2 * 1.2 * tanh 1 /
(1.2 + 1e-12)` (about 0.914) while the value at the bound is 1.2. -/
theorem softProject_discontinuous_counterexample :
    ¬ Continuous fun r : Fin 8 → ℝ => softProject r 1.2 := by
  intro hcont
  have hray : Continuous rayVec := by
    apply continuous_pi
    intro k
    by_cases hk : k = 0
    · subst hk
      simpa [rayVec] using continuous_id
    · simpa [rayVec, hk] using continuous_const
  have hf : Continuous fun t : ℝ => softProject (rayVec t) 1.2 0 :=
    (continuous_apply (0 : Fin 8)).comp (hcont.comp hray)
  have h1 : Filter.Tendsto (fun t : ℝ => softProject (rayVec t) 1.2 0)
      (nhdsWithin 1.2 (Set.Ioi 1.2)) (nhds 1.2) := by
    have ht := hf.tendsto 1.2
    rw [ray_at_bound] at ht
    exact ht.mono_left nhdsWithin_le_nhds
  have huniq := tendsto_nhds_unique h1 ray_tendsto_above
  have hlt := jump_lt
  linarith

/-- C5 amended. The tanh-based radial compression applies only strictly
outside the bound, so `softProject` is discontinuous at the bound: along the
first coordinate axis, letting the norm approach the default bound 1.2 from
above, the output tends to `1.2 * (1.2 * tanh 1 / (1.2 + 1e-12))`, which is
strictly below the unchanged boundary value 1.2 kept for inputs at or below
the bound. -/
theorem softProject_jump_at_bound :
    Filter.Tendsto (fun t : ℝ => softProject (rayVec t) 1.2 0)
      (nhdsWithin 1.2 (Set.Ioi 1.2))
      (nhds (1.2 * (1.2 * Real.tanh 1 / (1.2 + 1e-12)))) ∧
    1.2 * (1.2 * Real.tanh 1 / (1.2 + 1e-12)) < 1.2 ∧
    softProject (rayVec 1.2) 1.2 0 = 1.2 :=
  ⟨ray_tendsto_above, jump_lt, ray_at_bound⟩

end E8
